import Mathlib

/-!
Shallow embedding of the in-memory key-value store from `store.go`.

The source file contains two full variants of the store.  The first
(the corrected implementation, annotated with "+new" fix comments) is
embedded below in namespace `MemStore`; selected divergent pieces of the
second, deliberately buggy draft are embedded in namespace `MemStore.V2`
for comparison.

Modelling conventions:
* `time.Time` is modelled as nanoseconds since the epoch (`Nat`); the Go
  zero time (`IsZero`) is `0`, and `a.After(b)` is `b < a` (strict).
* `time.Duration` (a signed 64-bit count of nanoseconds) is modelled as
  `Int`; the store only compares it with `0` and adds it to a time, so
  machine-width overflow never matters on the inputs the claims quantify
  over and times are kept unbounded.
* The Go map `map[string]*Item` is modelled as an association list with
  insert-replaces-binding semantics; Go guarantees key uniqueness, which
  appears as a `Nodup` hypothesis where a proof needs it.
* `atomic.Uint64` views wrap at `2 ^ 64`: incrementing is `(v + 1) % U64`.
* The code is sequential in this model (one operation at a time); locks
  are correctness-irrelevant under that semantics.  `Get`'s re-check
  `curValue == item` before the lazy delete always succeeds sequentially,
  so the delete branch always removes the entry it just read.
-/

namespace MemStore

/-- Modulus of Go's `uint64`, the type of the `Views` counter. -/
def U64 : Nat := 2 ^ 64

/-- `Item` from `store.go`: value, absolute expiry (0 = never), view count. -/
structure Item where
  value : String
  expiresAt : Nat
  views : Nat
  deriving Repr, DecidableEq

/-- `ItemDTO` from `store.go`: the plain-data snapshot type `FullList` returns. -/
structure ItemDTO where
  value : String
  expiresAt : Nat
  views : Nat
  deriving Repr, DecidableEq

/-- The Go map `map[string]v` as an association list. -/
abbrev AMap (v : Type) := List (String × v)

/-- Go map read `m[key]`: first binding for `key`, if any. -/
def alookup {v : Type} : AMap v → String → Option v
  | [], _ => none
  | (k, it) :: rest, key => if k = key then some it else alookup rest key

/-- Go `delete(m, key)`: drop every binding for `key`. -/
def aerase {v : Type} : AMap v → String → AMap v
  | [], _ => []
  | (k, it) :: rest, key => if k = key then aerase rest key else (k, it) :: aerase rest key

/-- Go map write `m[key] = it`: replace the binding for `key`. -/
def ainsert {v : Type} (m : AMap v) (key : String) (it : v) : AMap v :=
  (key, it) :: aerase m key

/-- The `Store` of the first variant: primary table plus recency stack. -/
structure Store where
  data : AMap Item
  lastKeys : List String
  deriving Repr, DecidableEq

/-- `NewStore()`: empty table, empty stack. -/
def NewStore : Store := ⟨[], []⟩

/-- The stack update done by `push`: append, then drop index 0 when the
length exceeds 30. -/
def pushK (l : List String) (value : String) : List String :=
  let grown := l ++ [value]
  if grown.length > 30 then grown.drop 1 else grown

/-- `Store.push` (first variant, lines 211-221). -/
def Store.push (s : Store) (value : String) : Store :=
  { s with lastKeys := pushK s.lastKeys value }

/-- The absolute expiry `Set` computes: `now + ttl` when `ttl > 0`, else the
zero time. -/
def expiryOf (ttl : Int) (now : Nat) : Nat :=
  if 0 < ttl then now + ttl.toNat else 0

/-- `Store.Set` (first variant, lines 44-56): store a fresh `Item` with zero
views, then push the key onto the recency stack. -/
def Store.Set (s : Store) (key value : String) (ttl : Int) (now : Nat) : Store :=
  let s' : Store := { s with data := ainsert s.data key ⟨value, expiryOf ttl now, 0⟩ }
  s'.push key

/-- Expiry test used by `Get` and `Cleanup`: non-zero expiry strictly in the
past (`time.Now().After(item.ExpiresAt)`). -/
def expired (now : Nat) (it : Item) : Bool :=
  it.expiresAt != 0 && decide (it.expiresAt < now)

/-- `Store.Get` (first variant, lines 88-111): miss on absent key; lazily
delete and miss on an expired entry; otherwise bump views and hit.  Returns
the Go result pair together with the post-state. -/
def Store.Get (s : Store) (key : String) (now : Nat) : (String × Bool) × Store :=
  match alookup s.data key with
  | none => (("", false), s)
  | some item =>
    if expired now item then
      (("", false), { s with data := aerase s.data key })
    else
      ((item.value, true),
        { s with data := ainsert s.data key { item with views := (item.views + 1) % U64 } })

/-- `Store.GetViews` (first variant, lines 114-123): 0 on absent key, else
the stored counter, with no expiry check. -/
def Store.GetViews (s : Store) (key : String) : Nat :=
  match alookup s.data key with
  | none => 0
  | some item => item.views

/-- `Store.Delete` (first variant, lines 126-131). -/
def Store.Delete (s : Store) (key : String) : Store :=
  { s with data := aerase s.data key }

/-- `Store.Size` (first variant, lines 80-85): `len(s.data)`. -/
def Store.Size (s : Store) : Nat := s.data.length

/-- The per-entry copy `FullList` builds: plain data, views loaded once. -/
def itemToDTO (it : Item) : ItemDTO := ⟨it.value, it.expiresAt, it.views⟩

/-- The table projected to DTOs, entry by entry. -/
def dtoProject (m : AMap Item) : AMap ItemDTO :=
  m.map (fun p => (p.1, itemToDTO p.2))

/-- What a `FullList` caller holds afterwards.  `snapshot` is a fresh
value-type mapping (first variant); `sharedMap` is the store's own map
object handed out by reference (second variant's `return s.data`). -/
inductive FullListResult where
  | snapshot (entries : AMap ItemDTO)
  | sharedMap
  deriving Repr, DecidableEq

/-- Dereferencing the caller's `FullList` result at a later moment, when the
store has evolved to `s`: a snapshot reads its own copied entries; the shared
map object reads the store's current table. -/
def FullListResult.readNow : FullListResult → Store → AMap ItemDTO
  | .snapshot es, _ => es
  | .sharedMap, s => dtoProject s.data

/-- `Store.FullList` (first variant, lines 144-160): builds a fresh
`map[string]ItemDTO` copy of every entry. -/
def Store.FullList (s : Store) : FullListResult :=
  .snapshot (dtoProject s.data)

/-- The key list a `Cleanup` tick collects under the read lock: keys of
entries whose non-zero expiry is strictly before `now`. -/
def expiredKeysOf (m : AMap Item) (now : Nat) : List String :=
  (m.filter (fun p => expired now p.2)).map Prod.fst

/-- One tick of `Store.Cleanup` (first variant, lines 164-195): collect the
keys of expired entries, then (when any were found) delete exactly those
keys. -/
def Store.sweepOnce (s : Store) (now : Nat) : Store :=
  if (expiredKeysOf s.data now).isEmpty then s
  else { s with data := s.data.filter (fun p => !(expiredKeysOf s.data now).contains p.1) }

/-- `Store.RetrieveLastKey` (first variant, lines 61-77): empty sentinel on
an empty stack; otherwise pop the newest key (read at index `len-1`) and
delete it from the table. -/
def Store.RetrieveLastKey (s : Store) : String × Store :=
  if s.lastKeys.isEmpty then ("", s)
  else
    let k := s.lastKeys.getD (s.lastKeys.length - 1) ""
    (k, { data := aerase s.data k, lastKeys := s.lastKeys.take (s.lastKeys.length - 1) })

/-- `Store.Reset` (first variant, lines 199-208): fresh empty stack, fresh
empty table. -/
def Store.Reset (s : Store) : Store :=
  { s with data := [], lastKeys := [] }

/-- `Store.pop` (first variant, lines 224-235). -/
def Store.pop (s : Store) : Store :=
  if s.lastKeys.isEmpty then s
  else { s with lastKeys := s.lastKeys.take (s.lastKeys.length - 1) }

/-- `Store.top` (first variant, lines 238-247): empty sentinel on an empty
stack, else the element at index `len(s.lastKeys) - 1`. -/
def Store.top (s : Store) : String :=
  if s.lastKeys.isEmpty then ""
  else s.lastKeys.getD (s.lastKeys.length - 1) ""

/-- `k` successful-path `Get` calls on one key at the given times, threading
the store through. -/
def getIter (s : Store) (key : String) (ts : List Nat) : Store :=
  ts.foldl (fun st t => (st.Get key t).2) s

/-- A sequence of `Set` calls (key, value pairs) at one ttl and time. -/
def setFold (s : Store) (kvs : List (String × String)) (ttl : Int) (now : Nat) : Store :=
  kvs.foldl (fun st kv => st.Set kv.1 kv.2 ttl now) s

/-! ### Association-list lemmas -/

@[simp]
theorem alookup_nil {v : Type} (key : String) : alookup ([] : AMap v) key = none := rfl

theorem alookup_cons {v : Type} (k : String) (it : v) (m : AMap v) (key : String) :
    alookup ((k, it) :: m) key = if k = key then some it else alookup m key := rfl

@[simp]
theorem alookup_aerase {v : Type} (m : AMap v) (key k : String) :
    alookup (aerase m key) k = if k = key then none else alookup m k := by
  induction m with
  | nil => simp [aerase]
  | cons p rest ih =>
    obtain ⟨pk, pv⟩ := p
    by_cases hpk : pk = key
    · rw [show aerase ((pk, pv) :: rest) key = aerase rest key by simp [aerase, hpk]]
      rw [ih, alookup_cons]
      by_cases hk : k = key
      · simp [hk]
      · have hpkk : pk ≠ k := fun h => hk (h ▸ hpk)
        simp [hk, hpkk]
    · rw [show aerase ((pk, pv) :: rest) key = (pk, pv) :: aerase rest key by
        simp [aerase, hpk]]
      rw [alookup_cons, alookup_cons, ih]
      by_cases hpkk : pk = k
      · subst hpkk
        simp [hpk]
      · simp [hpkk]

@[simp]
theorem alookup_ainsert {v : Type} (m : AMap v) (key : String) (it : v) (k : String) :
    alookup (ainsert m key it) k = if k = key then some it else alookup m k := by
  rw [ainsert, alookup_cons, alookup_aerase]
  by_cases hk : k = key
  · simp [hk]
  · have hk2 : ¬key = k := fun h => hk h.symm
    simp [hk, hk2]

theorem alookup_mem {v : Type} {m : AMap v} {key : String} {it : v}
    (h : alookup m key = some it) : (key, it) ∈ m := by
  induction m with
  | nil => simp [alookup] at h
  | cons p rest ih =>
    obtain ⟨pk, pv⟩ := p
    rw [alookup_cons] at h
    by_cases hpk : pk = key
    · subst hpk; simp at h; subst h; exact List.mem_cons_self _ _
    · simp [hpk] at h; exact List.mem_cons_of_mem _ (ih h)

theorem alookup_of_mem_nodup {v : Type} {m : AMap v} {key : String} {it : v}
    (hnd : (m.map Prod.fst).Nodup) (h : (key, it) ∈ m) : alookup m key = some it := by
  induction m with
  | nil => simp at h
  | cons p rest ih =>
    obtain ⟨pk, pv⟩ := p
    simp only [List.map_cons, List.nodup_cons] at hnd
    rcases List.mem_cons.mp h with h1 | h1
    · cases h1; simp [alookup_cons]
    · have hne : pk ≠ key := by
        intro he; subst he
        exact hnd.1 (List.mem_map.mpr ⟨(pk, it), h1, rfl⟩)
      rw [alookup_cons, if_neg hne]
      exact ih hnd.2 h1

theorem mem_of_alookup_nodup {v : Type} {m : AMap v} {key : String} {it x : v}
    (hnd : (m.map Prod.fst).Nodup) (h : alookup m key = some it)
    (hx : (key, x) ∈ m) : x = it := by
  have := alookup_of_mem_nodup hnd hx
  rw [h] at this
  exact (Option.some.injEq _ _ ▸ this).symm

theorem alookup_filter_of_kept {v : Type} {m : AMap v} {key : String} (q : String × v → Bool)
    (hq : ∀ x, (key, x) ∈ m → q (key, x) = true) :
    alookup (m.filter q) key = alookup m key := by
  induction m with
  | nil => simp
  | cons p rest ih =>
    obtain ⟨pk, pv⟩ := p
    have ihr : alookup (rest.filter q) key = alookup rest key :=
      ih (fun x hx => hq x (List.mem_cons_of_mem _ hx))
    by_cases hpk : pk = key
    · subst hpk
      rw [List.filter_cons, hq pv (List.mem_cons_self _ _)]
      simp [alookup_cons, ihr]
    · rw [List.filter_cons]
      by_cases hqp : q (pk, pv) = true
      · simp [hqp, alookup_cons, hpk, ihr]
      · simp only [Bool.not_eq_true] at hqp
        simp [hqp, alookup_cons, hpk, ihr]

theorem alookup_dtoProject (m : AMap Item) (key : String) :
    alookup (dtoProject m) key = (alookup m key).map itemToDTO := by
  induction m with
  | nil => rfl
  | cons p rest ih =>
    obtain ⟨pk, pv⟩ := p
    show alookup ((pk, itemToDTO pv) :: dtoProject rest) key = _
    rw [alookup_cons, alookup_cons]
    by_cases hpk : pk = key
    · simp [hpk]
    · simp only [if_neg hpk]
      exact ih

/-! ### Characterisation of `Get` -/

theorem Get_eq_of_lookup_none {s : Store} {key : String} {now : Nat}
    (h : alookup s.data key = none) :
    s.Get key now = (("", false), s) := by
  unfold Store.Get
  rw [h]

theorem Get_eq_of_lookup_expired {s : Store} {key : String} {it : Item} {now : Nat}
    (h : alookup s.data key = some it) (he : expired now it = true) :
    s.Get key now = (("", false), { s with data := aerase s.data key }) := by
  unfold Store.Get
  rw [h]
  simp [he]

theorem Get_eq_of_lookup_live {s : Store} {key : String} {it : Item} {now : Nat}
    (h : alookup s.data key = some it) (he : expired now it = false) :
    s.Get key now = ((it.value, true),
      { s with data := ainsert s.data key { it with views := (it.views + 1) % U64 } }) := by
  unfold Store.Get
  rw [h]
  simp [he]

theorem expired_eq_true_iff (now : Nat) (it : Item) :
    expired now it = true ↔ it.expiresAt ≠ 0 ∧ it.expiresAt < now := by
  simp [expired]

theorem expired_eq_false_iff (now : Nat) (it : Item) :
    expired now it = false ↔ it.expiresAt = 0 ∨ now ≤ it.expiresAt := by
  have h := expired_eq_true_iff now it
  constructor
  · intro hf
    by_contra hc
    push_neg at hc
    have ht : expired now it = true := h.mpr ⟨hc.1, hc.2⟩
    rw [hf] at ht
    cases ht
  · intro ho
    rw [← Bool.not_eq_true]
    intro ht
    rcases h.mp ht with ⟨h0, hlt⟩
    rcases ho with h1 | h1
    · exact h0 h1
    · exact absurd h1 (not_le.mpr hlt)

theorem mem_expiredKeysOf {m : AMap Item} {now : Nat} {k : String} :
    k ∈ expiredKeysOf m now ↔ ∃ x, (k, x) ∈ m ∧ expired now x = true := by
  constructor
  · intro hk
    rcases List.mem_map.mp hk with ⟨p, hpf, hpk⟩
    rcases List.mem_filter.mp hpf with ⟨hpm, hpe⟩
    subst hpk
    exact ⟨p.2, by rw [Prod.mk.eta]; exact hpm, hpe⟩
  · rintro ⟨x, hxm, hxe⟩
    exact List.mem_map.mpr ⟨(k, x), List.mem_filter.mpr ⟨hxm, hxe⟩, rfl⟩

theorem getD_last_eq_getLast (l : List String) (h : l ≠ []) :
    l.getD (l.length - 1) "" = l.getLast h := by
  have hlt : l.length - 1 < l.length := by
    cases l with
    | nil => exact absurd rfl h
    | cons a t => simp
  rw [List.getD_eq_getElem _ _ hlt, List.getLast_eq_getElem]

theorem lookup_Set_self (s : Store) (key value : String) (ttl : Int) (now : Nat) :
    alookup (s.Set key value ttl now).data key = some ⟨value, expiryOf ttl now, 0⟩ := by
  simp [Store.Set, Store.push]

theorem lookup_Set_other (s : Store) (key value : String) (ttl : Int) (now : Nat)
    (k : String) (hk : k ≠ key) :
    alookup (s.Set key value ttl now).data k = alookup s.data k := by
  simp [Store.Set, Store.push, hk]

/-! ### Claim theorems -/

/-- Claim C1, amended: for an entry stored by `Set(key, value, ttl)` with
`ttl = d > 0`, `Get(key)` returns `(value, found=true)` at any time up to and
including the expiry instant `now+d`, and returns `found=false` strictly
after that instant (Go's `After` treats the exact instant as not yet
expired); `Get` never returns a value for an entry whose non-zero
`expiresAt` is strictly in the past. -/
theorem get_expiry_after_set (s : Store) (key value : String) (d : Int)
    (now0 t : Nat) (s2 : Store) (k : String) (it : Item) (t2 : Nat) (hd : 0 < d) :
    (t ≤ now0 + d.toNat → ((s.Set key value d now0).Get key t).1 = (value, true)) ∧
    (now0 + d.toNat < t → ((s.Set key value d now0).Get key t).1 = ("", false)) ∧
    (alookup s2.data k = some it → it.expiresAt ≠ 0 → it.expiresAt < t2 →
      ((s2.Get k t2).1).2 = false) := by
  have hexp : expiryOf d now0 = now0 + d.toNat := if_pos hd
  have hlk := lookup_Set_self s key value d now0
  refine ⟨?_, ?_, ?_⟩
  · intro ht
    have hlive : expired t ⟨value, expiryOf d now0, 0⟩ = false := by
      rw [expired_eq_false_iff]
      right
      rw [hexp]
      exact ht
    rw [Get_eq_of_lookup_live hlk hlive]
  · intro ht
    have hdead : expired t ⟨value, expiryOf d now0, 0⟩ = true := by
      rw [expired_eq_true_iff]
      constructor
      · rw [hexp]
        show now0 + d.toNat ≠ 0
        omega
      · rw [hexp]
        exact ht
    rw [Get_eq_of_lookup_expired hlk hdead]
  · intro hm h0 hp
    rw [Get_eq_of_lookup_expired hm ((expired_eq_true_iff t2 it).mpr ⟨h0, hp⟩)]

theorem get_expiry_after_set_witness :
    (0 : Int) < 5 ∧
    (((5 : Nat) ≤ 0 + (5 : Int).toNat →
        ((NewStore.Set "a" "v" 5 0).Get "a" 5).1 = ("v", true)) ∧
      (0 + (5 : Int).toNat < 5 → ((NewStore.Set "a" "v" 5 0).Get "a" 5).1 = ("", false)) ∧
      (alookup (Store.mk [("b", ⟨"w", 3, 0⟩)] []).data "b" = some ⟨"w", 3, 0⟩ →
        (Item.mk "w" 3 0).expiresAt ≠ 0 → (Item.mk "w" 3 0).expiresAt < 9 →
        (((Store.mk [("b", ⟨"w", 3, 0⟩)] []).Get "b" 9).1).2 = false)) :=
  ⟨by decide,
    get_expiry_after_set NewStore "a" "v" 5 0 5 (Store.mk [("b", ⟨"w", 3, 0⟩)] [])
      "b" ⟨"w", 3, 0⟩ 9 (by decide)⟩

/-- Claim C1, counterexample to the claim as stated: at exactly the expiry
instant `now+d` the entry is not yet treated as expired (Go's `After` is
strict), so `Get` still reports found=true there, refuting the claimed
found=false at or after the instant. -/
theorem get_found_at_exact_expiry_instant :
    ¬(((NewStore.Set "a" "v" 5 0).Get "a" (0 + (5 : Int).toNat)).1.2 = false) := by
  decide

/-- Claim C2: a tick of the background cleanup never deletes an unexpired
entry: a key present before the sweep and absent after it had a non-zero
expiry strictly before the sweep time. -/
theorem sweep_removes_only_expired (s : Store) (now : Nat) (k : String) (it : Item)
    (hnd : (s.data.map Prod.fst).Nodup)
    (hmem : alookup s.data k = some it)
    (hgone : alookup (s.sweepOnce now).data k = none) :
    it.expiresAt ≠ 0 ∧ it.expiresAt < now := by
  rw [← expired_eq_true_iff]
  cases hb : expired now it with
  | true => rfl
  | false =>
    exfalso
    have hnotin : k ∉ expiredKeysOf s.data now := by
      intro hk
      rcases mem_expiredKeysOf.mp hk with ⟨x, hxm, hxe⟩
      rw [mem_of_alookup_nodup hnd hmem hxm] at hxe
      rw [hb] at hxe
      cases hxe
    rw [Store.sweepOnce] at hgone
    by_cases hemp : (expiredKeysOf s.data now).isEmpty
    · rw [if_pos hemp] at hgone
      rw [hmem] at hgone
      cases hgone
    · rw [if_neg hemp] at hgone
      replace hgone :
          alookup (s.data.filter (fun p => !(expiredKeysOf s.data now).contains p.1)) k
            = none := hgone
      rw [alookup_filter_of_kept _ (fun x _ => by simp [hnotin]), hmem] at hgone
      cases hgone

theorem sweep_removes_only_expired_witness :
    (((Store.mk [("a", ⟨"v", 3, 0⟩)] []).data.map Prod.fst).Nodup ∧
      alookup (Store.mk [("a", ⟨"v", 3, 0⟩)] []).data "a" = some ⟨"v", 3, 0⟩ ∧
      alookup ((Store.mk [("a", ⟨"v", 3, 0⟩)] []).sweepOnce 10).data "a" = none) ∧
    ((Item.mk "v" 3 0).expiresAt ≠ 0 ∧ (Item.mk "v" 3 0).expiresAt < 10) :=
  ⟨⟨by decide, by decide, by decide⟩,
    sweep_removes_only_expired (Store.mk [("a", ⟨"v", 3, 0⟩)] []) 10 "a" ⟨"v", 3, 0⟩
      (by decide) (by decide) (by decide)⟩

/-- Claim C6: after `Reset()` the store is fully cleared: `Size()` is 0,
`FullList()` is an empty snapshot, and `RetrieveLastKey()` returns the empty
sentinel leaving the reset store unchanged. -/
theorem reset_completeness (s : Store) :
    (s.Reset).Size = 0 ∧ (s.Reset).FullList = .snapshot [] ∧
      (s.Reset).RetrieveLastKey = ("", s.Reset) :=
  ⟨rfl, rfl, rfl⟩

/-- Claim C7: `FullList` returns a value-type snapshot of every entry (value,
expiry, views at call time) keyed by key, and the caller's copy is
independent of the store: dereferencing it after a subsequent `Set`,
`Delete`, `Get` or sweep yields the same mapping as before. -/
theorem fulllist_snapshot_independent (s : Store) :
    (∀ k, alookup ((s.FullList).readNow s) k = (alookup s.data k).map itemToDTO) ∧
    (∀ key value ttl now,
      (s.FullList).readNow (s.Set key value ttl now) = (s.FullList).readNow s) ∧
    (∀ key, (s.FullList).readNow (s.Delete key) = (s.FullList).readNow s) ∧
    (∀ key t, (s.FullList).readNow ((s.Get key t).2) = (s.FullList).readNow s) ∧
    (∀ now, (s.FullList).readNow (s.sweepOnce now) = (s.FullList).readNow s) :=
  ⟨fun k => alookup_dtoProject s.data k,
    fun _ _ _ _ => rfl, fun _ => rfl, fun _ _ => rfl, fun _ => rfl⟩

/-- Claim C8: `top()` returns the newest stack key without mutating anything,
returns the empty sentinel on the empty stack, the index it reads is within
the stack's own bounds, and its result is independent of the primary table's
contents (it indexes the stack's length, never the table's size). -/
theorem top_reads_own_stack (s s2 : Store) (d : AMap Item) (h : s.lastKeys ≠ []) :
    (s2.lastKeys = [] → s2.top = "") ∧
    s.top = s.lastKeys.getLast h ∧
    s.lastKeys.length - 1 < s.lastKeys.length ∧
    (Store.mk d s.lastKeys).top = s.top := by
  refine ⟨?_, ?_, ?_, rfl⟩
  · intro h2
    simp [Store.top, h2]
  · rw [Store.top, if_neg (by simp [h])]
    exact getD_last_eq_getLast s.lastKeys h
  · cases hl : s.lastKeys with
    | nil => exact absurd hl h
    | cons a tl => simp [hl]

theorem top_reads_own_stack_witness :
    (Store.mk [] ["x", "y"]).lastKeys ≠ [] ∧
    ((NewStore.lastKeys = [] → NewStore.top = "") ∧
      (Store.mk [] ["x", "y"]).top =
        (Store.mk [] ["x", "y"]).lastKeys.getLast (by simp) ∧
      (Store.mk [] ["x", "y"]).lastKeys.length - 1 <
        (Store.mk [] ["x", "y"]).lastKeys.length ∧
      (Store.mk [("z", ⟨"w", 0, 0⟩)] (Store.mk [] ["x", "y"]).lastKeys).top =
        (Store.mk [] ["x", "y"]).top) :=
  ⟨by simp,
    top_reads_own_stack (Store.mk [] ["x", "y"]) NewStore [("z", ⟨"w", 0, 0⟩)] (by simp)⟩

/-- Claim C9: `GetViews` does not check expiry: for a key whose entry has a
non-zero `expiresAt` in the past but is still physically present,
`GetViews` returns the stored (possibly non-zero) counter even though `Get`
on the same key reports not found. -/
theorem getviews_ignores_expiry (s : Store) (key : String) (it : Item) (t : Nat)
    (hm : alookup s.data key = some it) (h0 : it.expiresAt ≠ 0) (hp : it.expiresAt < t) :
    s.GetViews key = it.views ∧ ((s.Get key t).1).2 = false := by
  constructor
  · rw [Store.GetViews, hm]
  · rw [Get_eq_of_lookup_expired hm ((expired_eq_true_iff t it).mpr ⟨h0, hp⟩)]

theorem getviews_ignores_expiry_witness :
    (alookup (Store.mk [("a", ⟨"v", 5, 7⟩)] []).data "a" = some ⟨"v", 5, 7⟩ ∧
      (Item.mk "v" 5 7).expiresAt ≠ 0 ∧ (Item.mk "v" 5 7).expiresAt < 9) ∧
    ((Store.mk [("a", ⟨"v", 5, 7⟩)] []).GetViews "a" = (Item.mk "v" 5 7).views ∧
      (((Store.mk [("a", ⟨"v", 5, 7⟩)] []).Get "a" 9).1).2 = false) :=
  ⟨⟨by decide, by decide, by decide⟩,
    getviews_ignores_expiry (Store.mk [("a", ⟨"v", 5, 7⟩)] []) "a" ⟨"v", 5, 7⟩ 9
      (by decide) (by decide) (by decide)⟩

/-- Claim C5: `RetrieveLastKey` removes the newest key from the recency
stack, deletes that same key from the primary table and returns it; on an
empty stack it returns the empty sentinel and leaves both structures
unchanged. -/
theorem retrieve_last_key_spec (s s0 : Store) (k k2 : String)
    (hlast : s.lastKeys.getLast? = some k) (h0 : s0.lastKeys = []) (hk2 : k2 ≠ k) :
    s0.RetrieveLastKey = ("", s0) ∧
    (s.RetrieveLastKey).1 = k ∧
    (s.RetrieveLastKey).2.lastKeys = s.lastKeys.dropLast ∧
    alookup (s.RetrieveLastKey).2.data k = none ∧
    alookup (s.RetrieveLastKey).2.data k2 = alookup s.data k2 := by
  have hne : s.lastKeys ≠ [] := by
    intro hnil
    rw [hnil] at hlast
    cases hlast
  have hget : s.lastKeys.getLast hne = k := by
    rw [List.getLast?_eq_getLast_of_ne_nil hne] at hlast
    exact Option.some_inj.mp hlast
  have hkd : s.lastKeys.getD (s.lastKeys.length - 1) "" = k := by
    rw [getD_last_eq_getLast s.lastKeys hne, hget]
  have hrl : s.RetrieveLastKey =
      (k, { data := aerase s.data k,
            lastKeys := s.lastKeys.take (s.lastKeys.length - 1) }) := by
    rw [Store.RetrieveLastKey, if_neg (by simp [hne])]
    rw [hkd]
  refine ⟨?_, ?_, ?_, ?_, ?_⟩
  · rw [Store.RetrieveLastKey, if_pos (by simp [h0])]
  · rw [hrl]
  · rw [hrl, List.dropLast_eq_take]
  · rw [hrl]
    show alookup (aerase s.data k) k = none
    simp
  · rw [hrl]
    show alookup (aerase s.data k) k2 = alookup s.data k2
    simp [hk2]

theorem retrieve_last_key_spec_witness :
    ((Store.mk [("a", ⟨"1", 0, 0⟩), ("b", ⟨"2", 0, 0⟩)] ["a", "b"]).lastKeys.getLast?
        = some "b" ∧
      NewStore.lastKeys = [] ∧ "a" ≠ "b") ∧
    (NewStore.RetrieveLastKey = ("", NewStore) ∧
      ((Store.mk [("a", ⟨"1", 0, 0⟩), ("b", ⟨"2", 0, 0⟩)] ["a", "b"]).RetrieveLastKey).1
        = "b" ∧
      ((Store.mk [("a", ⟨"1", 0, 0⟩), ("b", ⟨"2", 0, 0⟩)] ["a", "b"]).RetrieveLastKey).2.lastKeys
        = (Store.mk [("a", ⟨"1", 0, 0⟩), ("b", ⟨"2", 0, 0⟩)] ["a", "b"]).lastKeys.dropLast ∧
      alookup ((Store.mk [("a", ⟨"1", 0, 0⟩), ("b", ⟨"2", 0, 0⟩)]
        ["a", "b"]).RetrieveLastKey).2.data "b" = none ∧
      alookup ((Store.mk [("a", ⟨"1", 0, 0⟩), ("b", ⟨"2", 0, 0⟩)]
          ["a", "b"]).RetrieveLastKey).2.data "a"
        = alookup (Store.mk [("a", ⟨"1", 0, 0⟩), ("b", ⟨"2", 0, 0⟩)] ["a", "b"]).data "a") :=
  ⟨⟨by decide, rfl, by decide⟩,
    retrieve_last_key_spec
      (Store.mk [("a", ⟨"1", 0, 0⟩), ("b", ⟨"2", 0, 0⟩)] ["a", "b"]) NewStore "b" "a"
      (by decide) rfl (by decide)⟩

/-! ### Recency-stack arithmetic -/

theorem pushK_eq_drop (l : List String) (x : String) (h : l.length ≤ 30) :
    pushK l x = (l ++ [x]).drop (l.length + 1 - 30) := by
  simp only [pushK]
  by_cases h31 : (l ++ [x]).length > 30
  · rw [if_pos h31]
    simp only [List.length_append, List.length_singleton] at h31
    have h30 : l.length = 30 := by omega
    rw [h30]
  · rw [if_neg h31]
    simp only [List.length_append, List.length_singleton] at h31
    have h0 : l.length + 1 - 30 = 0 := by omega
    rw [h0, List.drop_zero]

theorem pushK_length (l : List String) (x : String) (h : l.length ≤ 30) :
    (pushK l x).length = min (l.length + 1) 30 := by
  rw [pushK_eq_drop l x h]
  simp only [List.length_drop, List.length_append, List.length_singleton]
  omega

theorem pushK_length_le (l : List String) (x : String) (h : l.length ≤ 30) :
    (pushK l x).length ≤ 30 := by
  rw [pushK_length l x h]
  omega

theorem foldl_pushK_eq (ks : List String) (init : List String) (h : init.length ≤ 30) :
    ks.foldl pushK init = (init ++ ks).drop (init.length + ks.length - 30) := by
  induction ks generalizing init with
  | nil =>
    simp only [List.foldl_nil, List.append_nil, List.length_nil, Nat.add_zero]
    rw [show init.length - 30 = 0 by omega, List.drop_zero]
  | cons x ks ih =>
    rw [List.foldl_cons, ih (pushK init x) (pushK_length_le init x h)]
    rw [pushK_length init x h, pushK_eq_drop init x h]
    have hd : init.length + 1 - 30 ≤ (init ++ [x]).length := by
      simp only [List.length_append, List.length_singleton]
      omega
    rw [← List.drop_append_of_le_length hd, List.drop_drop]
    have hX : (init ++ [x]) ++ ks = init ++ x :: ks := by simp
    rw [hX]
    congr 1
    simp only [List.length_append, List.length_singleton, List.length_cons]
    omega

/-- Every length-30-bounded stack stays bounded under the fold of pushes. -/
theorem foldl_pushK_length_le (ks : List String) (init : List String)
    (h : init.length ≤ 30) : (ks.foldl pushK init).length ≤ 30 := by
  induction ks generalizing init with
  | nil => exact h
  | cons x ks ih => exact ih (pushK init x) (pushK_length_le init x h)

theorem setFold_lastKeys (kvs : List (String × String)) (s : Store) (ttl : Int)
    (now : Nat) :
    (setFold s kvs ttl now).lastKeys = (kvs.map Prod.fst).foldl pushK s.lastKeys := by
  induction kvs generalizing s with
  | nil => rfl
  | cons kv kvs ih =>
    rw [setFold, List.foldl_cons, List.map_cons, List.foldl_cons]
    exact ih (s.Set kv.1 kv.2 ttl now)

theorem Get_lastKeys (s : Store) (key : String) (t : Nat) :
    ((s.Get key t).2).lastKeys = s.lastKeys := by
  rcases hlk : alookup s.data key with _ | it
  · rw [Get_eq_of_lookup_none hlk]
  · cases he : expired t it
    · rw [Get_eq_of_lookup_live hlk he]
    · rw [Get_eq_of_lookup_expired hlk he]

/-- Claim C4: the recency stack never exceeds 30 keys: every mutating
operation preserves `len(lastKeys) ≤ 30`; and after pushing `m > 30`
distinct keys via `Set` the stack is exactly the last 30 pushed keys in
write order (oldest of the 30 first), so its length is exactly 30. -/
theorem recency_stack_bounded (s : Store) (kvs : List (String × String))
    (key value : String) (ttl : Int) (now t : Nat)
    (h : s.lastKeys.length ≤ 30)
    (hm : 30 < kvs.length) (_hnd : (kvs.map Prod.fst).Nodup) :
    ((s.Set key value ttl now).lastKeys.length ≤ 30 ∧
      ((s.Get key t).2).lastKeys.length ≤ 30 ∧
      (s.Delete key).lastKeys.length ≤ 30 ∧
      (s.Reset).lastKeys.length ≤ 30 ∧
      ((s.RetrieveLastKey).2).lastKeys.length ≤ 30 ∧
      (s.sweepOnce t).lastKeys.length ≤ 30 ∧
      (s.push key).lastKeys.length ≤ 30 ∧
      (s.pop).lastKeys.length ≤ 30) ∧
    ((setFold s kvs ttl now).lastKeys = (kvs.map Prod.fst).drop (kvs.length - 30) ∧
      (setFold s kvs ttl now).lastKeys.length = 30) := by
  have hkeys : (kvs.map Prod.fst).length = kvs.length := List.length_map _ _
  constructor
  · refine ⟨pushK_length_le _ _ h, ?_, h, by simp [Store.Reset], ?_, ?_,
      pushK_length_le _ _ h, ?_⟩
    · rw [Get_lastKeys]
      exact h
    · rw [Store.RetrieveLastKey]
      by_cases he : s.lastKeys.isEmpty
      · rw [if_pos he]
        exact h
      · rw [if_neg he]
        show (s.lastKeys.take (s.lastKeys.length - 1)).length ≤ 30
        rw [List.length_take]
        omega
    · rw [Store.sweepOnce]
      by_cases he : (expiredKeysOf s.data t).isEmpty
      · rw [if_pos he]
        exact h
      · rw [if_neg he]
        exact h
    · rw [Store.pop]
      by_cases he : s.lastKeys.isEmpty
      · rw [if_pos he]
        exact h
      · rw [if_neg he]
        show (s.lastKeys.take (s.lastKeys.length - 1)).length ≤ 30
        rw [List.length_take]
        omega
  · have hstack : (setFold s kvs ttl now).lastKeys
        = (kvs.map Prod.fst).drop (kvs.length - 30) := by
      rw [setFold_lastKeys, foldl_pushK_eq _ _ h, List.drop_append_eq_append_drop]
      rw [List.drop_eq_nil_of_le (by omega), List.nil_append]
      congr 1
      omega
    refine ⟨hstack, ?_⟩
    rw [hstack, List.length_drop, hkeys]
    omega

theorem recency_stack_bounded_witness :
    (NewStore.lastKeys.length ≤ 30 ∧
      30 < ((List.range 31).map (fun i => (toString i, "v"))).length ∧
      (((List.range 31).map (fun i => (toString i, "v"))).map Prod.fst).Nodup) ∧
    (((NewStore.Set "k" "v" 1 0).lastKeys.length ≤ 30 ∧
        ((NewStore.Get "k" 2).2).lastKeys.length ≤ 30 ∧
        (NewStore.Delete "k").lastKeys.length ≤ 30 ∧
        (NewStore.Reset).lastKeys.length ≤ 30 ∧
        ((NewStore.RetrieveLastKey).2).lastKeys.length ≤ 30 ∧
        (NewStore.sweepOnce 2).lastKeys.length ≤ 30 ∧
        (NewStore.push "k").lastKeys.length ≤ 30 ∧
        (NewStore.pop).lastKeys.length ≤ 30) ∧
      ((setFold NewStore ((List.range 31).map (fun i => (toString i, "v"))) 1 0).lastKeys
          = (((List.range 31).map (fun i => (toString i, "v"))).map Prod.fst).drop
            (((List.range 31).map (fun i => (toString i, "v"))).length - 30) ∧
        (setFold NewStore ((List.range 31).map (fun i => (toString i, "v"))) 1 0).lastKeys.length
          = 30)) :=
  ⟨⟨by decide, by decide, by decide⟩,
    recency_stack_bounded NewStore ((List.range 31).map (fun i => (toString i, "v")))
      "k" "v" 1 0 2 (by decide) (by decide) (by decide)⟩

/-- Claim C10: `Set` pushes its key onto the recency stack unconditionally
(also on overwrite), so the stack may contain duplicates and the 30-entry
bound counts them: 31 consecutive `Set`s of one key leave the stack holding
exactly 30 copies of that key. -/
theorem set_pushes_unconditionally (s : Store) (key value : String) (ttl : Int)
    (now : Nat) (h : s.lastKeys.length ≤ 30) :
    (s.Set key value ttl now).lastKeys = pushK s.lastKeys key ∧
    (setFold s (List.replicate 31 (key, value)) ttl now).lastKeys
      = List.replicate 30 key := by
  refine ⟨rfl, ?_⟩
  rw [setFold_lastKeys]
  have hmap : (List.replicate 31 (key, value)).map Prod.fst = List.replicate 31 key := by
    simp
  rw [hmap, foldl_pushK_eq _ _ h, List.drop_append_eq_append_drop]
  rw [List.drop_eq_nil_of_le (by simp), List.nil_append]
  have hidx : s.lastKeys.length + (List.replicate 31 key).length - 30 - s.lastKeys.length
      = 1 := by
    simp
  rw [hidx, show (31 : Nat) = 30 + 1 by rfl, List.replicate_succ, List.drop_one,
    List.tail_cons]

theorem set_pushes_unconditionally_witness :
    NewStore.lastKeys.length ≤ 30 ∧
    ((NewStore.Set "k" "v" 1 0).lastKeys = pushK NewStore.lastKeys "k" ∧
      (setFold NewStore (List.replicate 31 ("k", "v")) 1 0).lastKeys
        = List.replicate 30 "k") :=
  ⟨by decide, set_pushes_unconditionally NewStore "k" "v" 1 0 (by decide)⟩

/-! ### View counting -/

theorem getIter_lookup (key : String) :
    ∀ (ts : List Nat) (s : Store) (it : Item),
      alookup s.data key = some it →
      (∀ t ∈ ts, it.expiresAt = 0 ∨ t ≤ it.expiresAt) →
      it.views < U64 →
      alookup (getIter s key ts).data key
        = some ⟨it.value, it.expiresAt, (it.views + ts.length) % U64⟩ := by
  intro ts
  induction ts with
  | nil =>
    intro s it hm hlive hv
    rw [getIter, List.foldl_nil, hm, List.length_nil, Nat.add_zero,
      Nat.mod_eq_of_lt hv]
  | cons t ts ih =>
    intro s it hm hlive hv
    have hlive_t : expired t it = false :=
      (expired_eq_false_iff t it).mpr (hlive t (List.mem_cons_self t ts))
    have hstep : getIter s key (t :: ts)
        = getIter (Store.mk
            (ainsert s.data key (Item.mk it.value it.expiresAt ((it.views + 1) % U64)))
            s.lastKeys) key ts := by
      rw [getIter, getIter, List.foldl_cons]
      congr 1
      rw [Get_eq_of_lookup_live hm hlive_t]
    rw [hstep]
    have hm2 : alookup (Store.mk
          (ainsert s.data key (Item.mk it.value it.expiresAt ((it.views + 1) % U64)))
          s.lastKeys).data key
        = some (Item.mk it.value it.expiresAt ((it.views + 1) % U64)) := by
      simp
    rw [ih _ _ hm2 (fun t2 ht2 => hlive t2 (List.mem_cons_of_mem t ht2))
      (Nat.mod_lt _ (by norm_num [U64]))]
    have harith : ((it.views + 1) % U64 + ts.length) % U64
        = (it.views + (t :: ts).length) % U64 := by
      rw [Nat.mod_add_mod, List.length_cons]
      congr 1
      omega
    rw [harith]

/-- Claim C3: for a key freshly written by `Set` and still live, `k`
successful `Get` calls with no intervening `Set` leave `GetViews` returning
exactly `k` (for any feasible `k`, i.e. below the `uint64` modulus), and a
subsequent `Set` on the same key resets the counter so `GetViews` returns 0
immediately after the overwrite. -/
theorem views_count_after_gets (s : Store) (key value v2 : String) (ttl t2 : Int)
    (now0 now2 : Nat) (ts : List Nat)
    (hk : ts.length < U64)
    (hlive : ∀ t ∈ ts, expiryOf ttl now0 = 0 ∨ t ≤ expiryOf ttl now0) :
    (getIter (s.Set key value ttl now0) key ts).GetViews key = ts.length ∧
    ((getIter (s.Set key value ttl now0) key ts).Set key v2 t2 now2).GetViews key = 0 := by
  constructor
  · have h1 := getIter_lookup key ts (s.Set key value ttl now0)
      ⟨value, expiryOf ttl now0, 0⟩ (lookup_Set_self s key value ttl now0) hlive
      (by norm_num [U64])
    rw [Store.GetViews, h1]
    show (0 + ts.length) % U64 = ts.length
    rw [Nat.zero_add, Nat.mod_eq_of_lt hk]
  · rw [Store.GetViews,
      lookup_Set_self (getIter (s.Set key value ttl now0) key ts) key v2 t2 now2]

theorem views_count_after_gets_witness :
    (([1, 2, 3] : List Nat).length < U64 ∧
      (∀ t ∈ ([1, 2, 3] : List Nat), expiryOf 5 0 = 0 ∨ t ≤ expiryOf 5 0)) ∧
    ((getIter (NewStore.Set "a" "v" 5 0) "a" [1, 2, 3]).GetViews "a"
        = ([1, 2, 3] : List Nat).length ∧
      ((getIter (NewStore.Set "a" "v" 5 0) "a" [1, 2, 3]).Set "a" "w" 5 3).GetViews "a"
        = 0) :=
  ⟨⟨by decide, by decide⟩,
    views_count_after_gets NewStore "a" "v" "w" 5 5 0 3 [1, 2, 3] (by decide) (by decide)⟩

/-! ### The second, deliberately buggy draft (src lines 248-411)

The task file's original variant.  Only the pieces that diverge from the
corrected variant are embedded, each with a theorem exhibiting the
divergence.  Value receivers mean the methods mutate a copy of the `Store`
header; field rebindings on the copy are invisible to the caller. -/

namespace V2

/-- Second variant `Cleanup` test (lines 365-374): deletes an entry whose
non-zero expiry is strictly after `now` — the reversed comparison
(`time.Now().Before(item.ExpiresAt)`). -/
def cleanupDeletes (now : Nat) (it : Item) : Bool :=
  it.expiresAt != 0 && decide (now < it.expiresAt)

/-- One pass of the second variant `Cleanup` loop body over the table. -/
def sweepOnce (m : AMap Item) (now : Nat) : AMap Item :=
  m.filter (fun p => !cleanupDeletes now p.2)

/-- The buggy draft's sweep deletes an entry that has not expired yet and
keeps one that has. -/
theorem v2_sweep_reversed_comparison :
    alookup (V2.sweepOnce [("a", ⟨"v", 10, 0⟩)] 5) "a" = none ∧
    alookup (V2.sweepOnce [("b", ⟨"w", 3, 0⟩)] 5) "b" = some ⟨"w", 3, 0⟩ := by
  decide

/-- Second variant `top` (lines 402-411): indexes the stack at
`len(s.data) - 1`, the primary table's size; `none` models the out-of-range
panic. -/
def top (data : AMap Item) (lastKeys : List String) : Option String :=
  if lastKeys.length = 0 then some ""
  else lastKeys.get? (data.length - 1)

/-- With 3 table entries and 1 stack key the buggy `top` goes out of bounds;
with 1 table entry and 2 stack keys it returns the oldest key instead of the
newest. -/
theorem v2_top_indexes_table_size :
    V2.top [("a", ⟨"1", 0, 0⟩), ("b", ⟨"2", 0, 0⟩), ("c", ⟨"3", 0, 0⟩)] ["x"] = none ∧
    V2.top [("a", ⟨"1", 0, 0⟩)] ["x", "y"] = some "x" := by
  decide

/-- Second variant `push` (lines 382-387): plain append, no 30-key bound. -/
def push (l : List String) (x : String) : List String := l ++ [x]

/-- 31 pushes through the buggy `push` exceed the 30-key bound. -/
theorem v2_push_unbounded :
    ((List.replicate 31 "k").foldl V2.push []).length = 31 := by
  decide

/-- Second variant `Reset` (lines 377-379): rebinds the `data` field of a
copied receiver, so the caller's store is unchanged. -/
def Reset (s : Store) : Store := s

/-- The buggy `Reset` leaves a non-empty store non-empty. -/
theorem v2_reset_leaves_store :
    (V2.Reset (Store.mk [("a", ⟨"v", 0, 0⟩)] ["a"])).Size = 1 := by
  decide

/-- Second variant `FullList` (lines 360-362): returns the internal map
object itself. -/
def FullList (_ : Store) : FullListResult := .sharedMap

/-- Dereferencing the buggy `FullList` result after a `Delete` on the store
no longer shows the deleted entry: the caller's copy is not independent. -/
theorem v2_fulllist_shares_map :
    (V2.FullList (Store.mk [("a", ⟨"v", 0, 0⟩)] [])).readNow
        ((Store.mk [("a", ⟨"v", 0, 0⟩)] []).Delete "a")
      ≠ (V2.FullList (Store.mk [("a", ⟨"v", 0, 0⟩)] [])).readNow
        (Store.mk [("a", ⟨"v", 0, 0⟩)] []) := by
  decide

end V2

end MemStore
